import Mathlib

/-!
Shallow embedding of the strided-rs benchmark suite core
(`src/main.rs` and `micro_bench/step408_bench.rs`):
the einsum format-string parser, the contraction-path-to-tree builder,
the timing-harness statistics, and the micro-benchmark's literal
canonical permutations.  Panics (`expect`, `assert_eq!`, out-of-bounds
`Vec::remove`) are modelled by `Option`, `none` standing for a fatal abort.
-/

namespace StridedBench

/-- `strided_opteinsum::EinsumNode`: either a leaf referencing one input
operand (its label characters and its operand position), or a contraction
of a list of child nodes.  The repo only ever builds two-child contract
nodes (`vec![node_i, node_j]`), but the `args` field is a vector. -/
inductive EinsumNode where
  | Leaf (ids : List Char) (tensor_index : Nat)
  | Contract (args : List EinsumNode)

/-- `s.split_once("->")` from `parse_format_string`: split at the first
occurrence of the two-character pattern `->`; `none` when the pattern does
not occur (the Rust code then panics via `expect`). -/
def splitOnceArrow : List Char → Option (List Char × List Char)
  | [] => none
  | c :: cs =>
    if (c :: cs).take 2 = ['-', '>'] then some ([], cs.drop 1)
    else (splitOnceArrow cs).map (fun p => (c :: p.1, p.2))

/-- `inputs_str.split(',')` from `parse_format_string`: split on every
comma; the empty string yields one empty segment, and adjacent commas
yield empty segments. -/
def splitComma : List Char → List (List Char)
  | [] => [[]]
  | c :: cs =>
    if c = ',' then [] :: splitComma cs
    else
      match splitComma cs with
      | [] => [[c]]
      | seg :: rest => (c :: seg) :: rest

/-- `parse_format_string` from `src/main.rs`: split at the first `->`
(fatal if absent), split the left side on `,` into per-operand label
sequences, return the right side as the output label sequence. -/
def parse_format_string (s : List Char) :
    Option (List (List Char) × List Char) :=
  match splitOnceArrow s with
  | none => none
  | some (inputs_str, output_str) =>
    some (splitComma inputs_str, output_str)

/-- One iteration of the `for &pair in path` loop of
`build_contraction_tree`: order the pair as `(i, j) = (min, max)`,
`nodes.remove(j)` then `nodes.remove(i)` (each a fatal panic when out of
bounds, modelled as `none`), and push `Contract { args: vec![node_i,
node_j] }` onto the end of the worklist. -/
def contractStep (nodes : List EinsumNode) (pair : Nat × Nat) :
    Option (List EinsumNode) :=
  let ij := if pair.1 < pair.2 then (pair.1, pair.2) else (pair.2, pair.1)
  if hj : ij.2 < nodes.length then
    let node_j := nodes.get ⟨ij.2, hj⟩
    let rest := nodes.eraseIdx ij.2
    if hi : ij.1 < rest.length then
      let node_i := rest.get ⟨ij.1, hi⟩
      some (rest.eraseIdx ij.1 ++ [EinsumNode.Contract [node_i, node_j]])
    else none
  else none

/-- The initial worklist of `build_contraction_tree`: one `Leaf` per
input operand, in order, with `tensor_index` its position. -/
def initialLeaves (input_indices : List (List Char)) : List EinsumNode :=
  input_indices.enum.map (fun p => EinsumNode.Leaf p.2 p.1)

/-- `build_contraction_tree` from `src/main.rs`: fold the contraction
path over the leaf worklist; `assert_eq!(nodes.len(), 1)` at the end is
modelled by returning `none` unless exactly one node remains. -/
def build_contraction_tree (input_indices : List (List Char))
    (path : List (Nat × Nat)) : Option EinsumNode :=
  match path.foldlM contractStep (initialLeaves input_indices) with
  | some [t] => some t
  | _ => none

mutual

/-- Number of `Leaf` nodes in a contraction tree. -/
def leafCount : EinsumNode → Nat
  | .Leaf _ _ => 1
  | .Contract args => leafCountList args

/-- Total number of `Leaf` nodes across a list of trees. -/
def leafCountList : List EinsumNode → Nat
  | [] => 0
  | t :: ts => leafCount t + leafCountList ts

end

mutual

/-- Number of `Contract` (internal) nodes in a contraction tree. -/
def internalCount : EinsumNode → Nat
  | .Leaf _ _ => 0
  | .Contract args => internalCountList args + 1

/-- Total number of `Contract` nodes across a list of trees. -/
def internalCountList : List EinsumNode → Nat
  | [] => 0
  | t :: ts => internalCount t + internalCountList ts

end

mutual

/-- The `tensor_index` values of the leaves of a tree, left to right. -/
def leafIndices : EinsumNode → List Nat
  | .Leaf _ i => [i]
  | .Contract args => leafIndicesList args

/-- Leaf `tensor_index` values across a list of trees, left to right. -/
def leafIndicesList : List EinsumNode → List Nat
  | [] => []
  | t :: ts => leafIndices t ++ leafIndicesList ts

end

/-- The statistics reduction of `bench` in `micro_bench/step408_bench.rs`
(and of `run_instance` in `src/main.rs` for the median): sort the recorded
samples, take `median = sorted[len/2]`, `q1 = sorted[len/4]`,
`q3 = sorted[3*len/4]`, and return `(median, q3 - q1)`.  Out-of-range
indexing (a Rust panic, impossible for nonempty samples) is `none`.
Samples are modelled as rationals. -/
def bench_stats (times : List ℚ) : Option (ℚ × ℚ) :=
  match (times.mergeSort).get? (times.length / 2),
      (times.mergeSort).get? (times.length / 4),
      (times.mergeSort).get? (3 * times.length / 4) with
  | some med, some q1, some q3 => some (med, q3 - q1)
  | _, _, _ => none

/-- The literal `left_perm` of `micro_bench/step408_bench.rs` (the
canonical permutation for operand A, 13 dimensions). -/
def left_perm : List Nat := [1, 12, 0, 4, 5, 6, 7, 8, 9, 11, 2, 3, 10]

/-- The literal `right_perm` of `micro_bench/step408_bench.rs` (the
canonical permutation for operand B, 24 dimensions). -/
def right_perm : List Nat :=
  [4, 10, 23, 12, 20, 0, 3, 17, 1, 2, 6, 7, 8, 9, 11, 13, 14, 15, 18, 21,
   22, 5, 16, 19]

/-- The two-character pattern `->` occurs in `s` at position `i`. -/
def arrowAt (s : List Char) (i : Nat) : Prop :=
  (s.drop i).take 2 = ['-', '>']

instance (s : List Char) (i : Nat) : Decidable (arrowAt s i) := by
  unfold arrowAt; infer_instance

/-! ## Supporting lemmas -/

theorem minmax_if (p q : Nat) :
    (if p < q then (p, q) else (q, p)) = (min p q, max p q) := by
  by_cases h : p < q
  · rw [if_pos h, Nat.min_eq_left (Nat.le_of_lt h),
      Nat.max_eq_right (Nat.le_of_lt h)]
  · have h' : q ≤ p := Nat.le_of_not_lt h
    rw [if_neg h, Nat.min_eq_right h', Nat.max_eq_left h']

theorem perm_get_cons_eraseIdx {α : Type} :
    ∀ (l : List α) (i : Nat) (h : i < l.length),
      l.Perm (l.get ⟨i, h⟩ :: l.eraseIdx i)
  | a :: t, 0, _ => by simp [List.eraseIdx]
  | a :: t, i + 1, h => by
    have h' : i < t.length := by simpa using h
    have ih := perm_get_cons_eraseIdx t i h'
    simp only [List.eraseIdx, List.get]
    exact (ih.cons a).trans (List.Perm.swap _ _ _)

theorem contractStep_some {nodes ns' : List EinsumNode} {p q : Nat}
    (h : contractStep nodes (p, q) = some ns') :
    ∃ (hj : max p q < nodes.length)
      (hi : min p q < (nodes.eraseIdx (max p q)).length),
      ns' = (nodes.eraseIdx (max p q)).eraseIdx (min p q) ++
        [EinsumNode.Contract [(nodes.eraseIdx (max p q)).get ⟨min p q, hi⟩,
          nodes.get ⟨max p q, hj⟩]] := by
  unfold contractStep at h
  rw [minmax_if p q] at h
  by_cases hj : max p q < nodes.length
  · rw [dif_pos hj] at h
    by_cases hi : min p q < (nodes.eraseIdx (max p q)).length
    · rw [dif_pos hi] at h
      exact ⟨hj, hi, (Option.some.injEq _ _ ▸ h).symm⟩
    · rw [dif_neg hi] at h; exact absurd h (by simp)
  · rw [dif_neg hj] at h; exact absurd h (by simp)

theorem contractStep_length {nodes ns' : List EinsumNode} {pr : Nat × Nat}
    (h : contractStep nodes pr = some ns') :
    ns'.length + 1 = nodes.length := by
  obtain ⟨p, q⟩ := pr
  obtain ⟨hj, hi, rfl⟩ := contractStep_some h
  have e1 := List.length_eraseIdx_add_one hj
  have e2 := List.length_eraseIdx_add_one hi
  simp only [List.length_append, List.length_cons, List.length_nil]
  omega

theorem contractStep_symm (s : List EinsumNode) (p q : Nat) :
    contractStep s (p, q) = contractStep s (q, p) := by
  unfold contractStep
  rw [minmax_if p q, minmax_if q p, Nat.min_comm q p, Nat.max_comm q p]

theorem leafIndicesList_append (l₁ l₂ : List EinsumNode) :
    leafIndicesList (l₁ ++ l₂) =
      leafIndicesList l₁ ++ leafIndicesList l₂ := by
  induction l₁ with
  | nil => simp [leafIndicesList]
  | cons t ts ih => simp [leafIndicesList, ih]

theorem leafIndicesList_perm {l₁ l₂ : List EinsumNode} (h : l₁.Perm l₂) :
    (leafIndicesList l₁).Perm (leafIndicesList l₂) := by
  induction h with
  | nil => exact List.Perm.refl _
  | cons x _ ih => exact List.Perm.append_left _ ih
  | swap x y l =>
    simp only [leafIndicesList]
    rw [← List.append_assoc, ← List.append_assoc]
    exact List.Perm.append_right _ List.perm_append_comm
  | trans _ _ ih1 ih2 => exact ih1.trans ih2

theorem internalCountList_perm {l₁ l₂ : List EinsumNode} (h : l₁.Perm l₂) :
    internalCountList l₁ = internalCountList l₂ := by
  induction h with
  | nil => rfl
  | cons x _ ih => simp only [internalCountList]; omega
  | swap x y l => simp only [internalCountList]; omega
  | trans _ _ ih1 ih2 => omega

theorem contractStep_leafIndices {nodes ns' : List EinsumNode}
    {pr : Nat × Nat} (h : contractStep nodes pr = some ns') :
    (leafIndicesList ns').Perm (leafIndicesList nodes) := by
  obtain ⟨p, q⟩ := pr
  obtain ⟨hj, hi, rfl⟩ := contractStep_some h
  set E1 := nodes.eraseIdx (max p q) with hE1
  set E2 := E1.eraseIdx (min p q) with hE2
  set nj := nodes.get ⟨max p q, hj⟩ with hnj
  set ni := E1.get ⟨min p q, hi⟩ with hni
  have p1 : nodes.Perm (nj :: E1) := perm_get_cons_eraseIdx nodes _ hj
  have p2 : E1.Perm (ni :: E2) := perm_get_cons_eraseIdx E1 _ hi
  have q1 : (leafIndicesList nodes).Perm
      (leafIndices nj ++ (leafIndices ni ++ leafIndicesList E2)) := by
    refine (leafIndicesList_perm p1).trans ?_
    simp only [leafIndicesList]
    exact List.Perm.append_left _ (leafIndicesList_perm p2)
  have q2 : leafIndicesList (E2 ++ [EinsumNode.Contract [ni, nj]]) =
      leafIndicesList E2 ++ (leafIndices ni ++ (leafIndices nj ++ [])) := by
    rw [leafIndicesList_append]
    simp [leafIndicesList, leafIndices]
  rw [q2]
  refine List.Perm.symm (q1.trans ?_)
  simp only [List.append_nil]
  have c1 : (leafIndices nj ++ (leafIndices ni ++ leafIndicesList E2)).Perm
      ((leafIndices ni ++ leafIndicesList E2) ++ leafIndices nj) :=
    List.perm_append_comm
  have c2 : ((leafIndices ni ++ leafIndicesList E2) ++ leafIndices nj).Perm
      ((leafIndicesList E2 ++ leafIndices ni) ++ leafIndices nj) :=
    List.Perm.append_right _ List.perm_append_comm
  have c3 : ((leafIndicesList E2 ++ leafIndices ni) ++ leafIndices nj).Perm
      (leafIndicesList E2 ++ (leafIndices ni ++ leafIndices nj)) := by
    rw [List.append_assoc]
  exact c1.trans (c2.trans c3)

theorem internalCountList_append (l₁ l₂ : List EinsumNode) :
    internalCountList (l₁ ++ l₂) =
      internalCountList l₁ + internalCountList l₂ := by
  induction l₁ with
  | nil => simp [internalCountList]
  | cons t ts ih => simp [internalCountList, ih]; omega

theorem contractStep_internal {nodes ns' : List EinsumNode}
    {pr : Nat × Nat} (h : contractStep nodes pr = some ns') :
    internalCountList ns' = internalCountList nodes + 1 := by
  obtain ⟨p, q⟩ := pr
  obtain ⟨hj, hi, rfl⟩ := contractStep_some h
  set E1 := nodes.eraseIdx (max p q) with hE1
  set E2 := E1.eraseIdx (min p q) with hE2
  set nj := nodes.get ⟨max p q, hj⟩ with hnj
  set ni := E1.get ⟨min p q, hi⟩ with hni
  have p1 : nodes.Perm (nj :: E1) := perm_get_cons_eraseIdx nodes _ hj
  have p2 : E1.Perm (ni :: E2) := perm_get_cons_eraseIdx E1 _ hi
  have e1 : internalCountList nodes = internalCount nj + internalCountList E1 := by
    rw [internalCountList_perm p1]; rfl
  have e2 : internalCountList E1 = internalCount ni + internalCountList E2 := by
    rw [internalCountList_perm p2]; rfl
  rw [internalCountList_append]
  simp only [internalCountList, internalCount]
  omega

theorem foldl_contract_length :
    ∀ (path : List (Nat × Nat)) (nodes ns : List EinsumNode),
      path.foldlM contractStep nodes = some ns →
      ns.length + path.length = nodes.length := by
  intro path
  induction path with
  | nil => intro nodes ns h; simp at h; simp [h]
  | cons pr path ih =>
    intro nodes ns h
    rw [List.foldlM_cons] at h
    cases hstep : contractStep nodes pr with
    | none => rw [hstep] at h; simp at h
    | some mid =>
      rw [hstep] at h
      simp only [Option.bind_eq_bind, Option.some_bind] at h
      have h1 := ih mid ns h
      have h2 := contractStep_length hstep
      simp only [List.length_cons]
      omega

theorem foldl_contract_leafIndices :
    ∀ (path : List (Nat × Nat)) (nodes ns : List EinsumNode),
      path.foldlM contractStep nodes = some ns →
      (leafIndicesList ns).Perm (leafIndicesList nodes) := by
  intro path
  induction path with
  | nil => intro nodes ns h; simp at h; rw [h]
  | cons pr path ih =>
    intro nodes ns h
    rw [List.foldlM_cons] at h
    cases hstep : contractStep nodes pr with
    | none => rw [hstep] at h; simp at h
    | some mid =>
      rw [hstep] at h
      simp only [Option.bind_eq_bind, Option.some_bind] at h
      exact (ih mid ns h).trans (contractStep_leafIndices hstep)

theorem foldl_contract_internal :
    ∀ (path : List (Nat × Nat)) (nodes ns : List EinsumNode),
      path.foldlM contractStep nodes = some ns →
      internalCountList ns = internalCountList nodes + path.length := by
  intro path
  induction path with
  | nil => intro nodes ns h; simp at h; simp [h]
  | cons pr path ih =>
    intro nodes ns h
    rw [List.foldlM_cons] at h
    cases hstep : contractStep nodes pr with
    | none => rw [hstep] at h; simp at h
    | some mid =>
      rw [hstep] at h
      simp only [Option.bind_eq_bind, Option.some_bind] at h
      have h1 := ih mid ns h
      have h2 := contractStep_internal hstep
      simp only [List.length_cons]
      omega

theorem leafIndicesList_map_leaf (l : List (Nat × List Char)) :
    leafIndicesList (l.map (fun p => EinsumNode.Leaf p.2 p.1)) =
      l.map Prod.fst := by
  induction l with
  | nil => rfl
  | cons p ps ih => simp [leafIndicesList, leafIndices, ih]

theorem leafIndicesList_initialLeaves (ids : List (List Char)) :
    leafIndicesList (initialLeaves ids) = List.range ids.length := by
  rw [initialLeaves, leafIndicesList_map_leaf, List.enum_map_fst]

theorem internalCountList_map_leaf (l : List (Nat × List Char)) :
    internalCountList (l.map (fun p => EinsumNode.Leaf p.2 p.1)) = 0 := by
  induction l with
  | nil => rfl
  | cons p ps ih => simp [internalCountList, internalCount, ih]

theorem internalCountList_initialLeaves (ids : List (List Char)) :
    internalCountList (initialLeaves ids) = 0 :=
  internalCountList_map_leaf _

theorem length_initialLeaves (ids : List (List Char)) :
    (initialLeaves ids).length = ids.length := by
  simp [initialLeaves]

mutual

theorem leafCount_eq_length : ∀ (t : EinsumNode),
    leafCount t = (leafIndices t).length
  | .Leaf _ _ => rfl
  | .Contract args => by
    rw [leafCount, leafIndices]
    exact leafCountList_eq_length args

theorem leafCountList_eq_length : ∀ (l : List EinsumNode),
    leafCountList l = (leafIndicesList l).length
  | [] => rfl
  | t :: ts => by
    rw [leafCountList, leafIndicesList, List.length_append,
      leafCount_eq_length t, leafCountList_eq_length ts]

end

theorem build_eq_some {ids : List (List Char)} {path : List (Nat × Nat)}
    {t : EinsumNode} :
    build_contraction_tree ids path = some t ↔
      path.foldlM contractStep (initialLeaves ids) = some [t] := by
  unfold build_contraction_tree
  cases h : path.foldlM contractStep (initialLeaves ids) with
  | none => simp
  | some ns =>
    cases ns with
    | nil => simp
    | cons x xs =>
      cases xs with
      | nil => simp
      | cons y ys => simp

theorem arrowAt_cons_succ (c : Char) (cs : List Char) (i : Nat) :
    arrowAt (c :: cs) (i + 1) = arrowAt cs i := rfl

theorem splitOnceArrow_cons_pos {c : Char} {cs : List Char}
    (h0 : arrowAt (c :: cs) 0) :
    splitOnceArrow (c :: cs) = some ([], cs.drop 1) := by
  rw [splitOnceArrow,
    if_pos (show List.take 2 (c :: cs) = ['-', '>'] from h0)]

theorem splitOnceArrow_cons_neg {c : Char} {cs : List Char}
    (h0 : ¬ arrowAt (c :: cs) 0) :
    splitOnceArrow (c :: cs) =
      (splitOnceArrow cs).map (fun p => (c :: p.1, p.2)) := by
  rw [splitOnceArrow,
    if_neg (show ¬ List.take 2 (c :: cs) = ['-', '>'] from h0)]

theorem splitOnceArrow_eq_none_iff (s : List Char) :
    splitOnceArrow s = none ↔ ∀ i, ¬ arrowAt s i := by
  induction s with
  | nil =>
    simp only [splitOnceArrow, true_iff]
    intro i h
    simp [arrowAt] at h
  | cons c cs ih =>
    by_cases h0 : arrowAt (c :: cs) 0
    · rw [splitOnceArrow_cons_pos h0]
      simp only [reduceCtorEq, false_iff]
      intro h
      exact h 0 h0
    · rw [splitOnceArrow_cons_neg h0, Option.map_eq_none', ih]
      constructor
      · intro h i
        cases i with
        | zero => exact h0
        | succ i => rw [arrowAt_cons_succ]; exact h i
      · intro h i
        have := h (i + 1)
        rwa [arrowAt_cons_succ] at this

theorem splitOnceArrow_first :
    ∀ (s : List Char) (i : Nat), arrowAt s i →
      (∀ k, k < i → ¬ arrowAt s k) →
      splitOnceArrow s = some (s.take i, s.drop (i + 2))
  | [], i, h, _ => by simp [arrowAt] at h
  | c :: cs, 0, h, _ => by
    rw [splitOnceArrow_cons_pos h]
    have hd : cs.drop 1 = (c :: cs).drop 2 := rfl
    rw [hd, List.take_zero]
  | c :: cs, i + 1, h, hmin => by
    have h0 : ¬ arrowAt (c :: cs) 0 := hmin 0 (Nat.succ_pos i)
    rw [splitOnceArrow_cons_neg h0]
    have hcs : arrowAt cs i := h
    have hmin' : ∀ k, k < i → ¬ arrowAt cs k := by
      intro k hk hak
      exact hmin (k + 1) (Nat.succ_lt_succ hk) hak
    rw [splitOnceArrow_first cs i hcs hmin']
    rfl

theorem splitComma_ne_nil : ∀ (l : List Char), splitComma l ≠ []
  | [] => by simp [splitComma]
  | c :: cs => by
    rw [splitComma]
    by_cases h : c = ','
    · rw [if_pos h]; simp
    · rw [if_neg h]
      cases hcs : splitComma cs with
      | nil => simp
      | cons seg rest => simp

theorem splitComma_no_comma :
    ∀ (l₁ l₂ : List Char), ',' ∉ l₁ →
      splitComma (l₁ ++ ',' :: l₂) = l₁ :: splitComma l₂
  | [], l₂, _ => by simp [splitComma]
  | c :: cs, l₂, h => by
    have hc : c ≠ ',' := fun hc => h (hc ▸ List.mem_cons_self c cs)
    have hcs : ',' ∉ cs := fun hm => h (List.mem_cons_of_mem c hm)
    rw [List.cons_append, splitComma, if_neg hc,
      splitComma_no_comma cs l₂ hcs]

/-! ## Claim theorems -/

/-- C1: for every worklist and path pair `(p, q)`, the tree builder's loop
body takes `i = min p q`, `j = max p q`, removes the entry at `j` first and
then the entry at `i`, and appends the new `Contract` node at the end, so
every successfully processed pair shrinks the worklist by exactly one. -/
theorem C1_pair_processing (nodes : List EinsumNode) (p q : Nat)
    (ns' : List EinsumNode) (h : contractStep nodes (p, q) = some ns') :
    (∃ args, ns' = (nodes.eraseIdx (max p q)).eraseIdx (min p q) ++
      [EinsumNode.Contract args]) ∧ ns'.length + 1 = nodes.length := by
  obtain ⟨hj, hi, hzz⟩ := contractStep_some h
  exact ⟨⟨_, hzz⟩, contractStep_length h⟩

theorem C1_pair_processing_witness :
    (∃ args,
      [EinsumNode.Contract [EinsumNode.Leaf ['a'] 0, EinsumNode.Leaf ['b'] 1]] =
        (([EinsumNode.Leaf ['a'] 0, EinsumNode.Leaf ['b'] 1].eraseIdx
          (max 0 1)).eraseIdx (min 0 1)) ++ [EinsumNode.Contract args]) ∧
    ([EinsumNode.Contract [EinsumNode.Leaf ['a'] 0,
      EinsumNode.Leaf ['b'] 1]] : List EinsumNode).length + 1 =
      ([EinsumNode.Leaf ['a'] 0, EinsumNode.Leaf ['b'] 1] :
        List EinsumNode).length :=
  C1_pair_processing [EinsumNode.Leaf ['a'] 0, EinsumNode.Leaf ['b'] 1] 0 1
    [EinsumNode.Contract [EinsumNode.Leaf ['a'] 0, EinsumNode.Leaf ['b'] 1]]
    rfl

/-- C2 counterexample: for the path pair `(1, 0)` the claim predicts a
`Contract` node whose children are the entry at position 1 then the entry
at position 0, but the code produces the children re-sorted by index:
entry at 0 first, entry at 1 second. -/
theorem C2_children_counterexample :
    build_contraction_tree [['a'], ['b']] [(1, 0)] =
      some (EinsumNode.Contract
        [EinsumNode.Leaf ['a'] 0, EinsumNode.Leaf ['b'] 1]) ∧
    build_contraction_tree [['a'], ['b']] [(1, 0)] ≠
      some (EinsumNode.Contract
        [EinsumNode.Leaf ['b'] 1, EinsumNode.Leaf ['a'] 0]) := by
  refine ⟨rfl, ?_⟩
  intro h
  rw [show build_contraction_tree [['a'], ['b']] [(1, 0)] =
    some (EinsumNode.Contract [EinsumNode.Leaf ['a'] 0,
      EinsumNode.Leaf ['b'] 1]) from rfl] at h
  simp only [Option.some.injEq, EinsumNode.Contract.injEq, List.cons.injEq,
    EinsumNode.Leaf.injEq] at h
  omega

/-- C2 (amended): for every path pair `(p, q)` with `p ≠ q` and
`max p q` in bounds, the new node's children are, in order, the worklist
entry at position `min p q` then the entry at position `max p q` — the
child order is sorted ascending by index value, not preserved as given by
the path. -/
theorem C2_children_sorted (nodes : List EinsumNode) (p q : Nat)
    (hpq : p ≠ q) (hj : max p q < nodes.length) :
    ∃ (hi : min p q < nodes.length),
      contractStep nodes (p, q) =
        some ((nodes.eraseIdx (max p q)).eraseIdx (min p q) ++
          [EinsumNode.Contract [nodes.get ⟨min p q, hi⟩,
            nodes.get ⟨max p q, hj⟩]]) := by
  have hlt : min p q < max p q := min_lt_max.mpr hpq
  have hi : min p q < nodes.length := hlt.trans hj
  refine ⟨hi, ?_⟩
  have hrest := List.length_eraseIdx_add_one hj
  have hi' : min p q < (nodes.eraseIdx (max p q)).length := by omega
  unfold contractStep
  rw [minmax_if p q, dif_pos hj, dif_pos hi']
  have hget : (nodes.eraseIdx (max p q)).get ⟨min p q, hi'⟩ =
      nodes.get ⟨min p q, hi⟩ := by
    simp only [List.get_eq_getElem]
    exact List.getElem_eraseIdx_of_lt nodes (max p q) (min p q) hi' hlt
  rw [hget]

theorem C2_children_sorted_witness :
    ∃ (hi : min 1 0 < ([EinsumNode.Leaf ['a'] 0, EinsumNode.Leaf ['b'] 1] :
        List EinsumNode).length),
      contractStep [EinsumNode.Leaf ['a'] 0, EinsumNode.Leaf ['b'] 1]
          (1, 0) =
        some ((([EinsumNode.Leaf ['a'] 0,
          EinsumNode.Leaf ['b'] 1].eraseIdx (max 1 0)).eraseIdx (min 1 0)) ++
          [EinsumNode.Contract
            [[EinsumNode.Leaf ['a'] 0,
                EinsumNode.Leaf ['b'] 1].get ⟨min 1 0, hi⟩,
             [EinsumNode.Leaf ['a'] 0,
                EinsumNode.Leaf ['b'] 1].get ⟨max 1 0, by decide⟩]]) :=
  C2_children_sorted [EinsumNode.Leaf ['a'] 0, EinsumNode.Leaf ['b'] 1] 1 0
    (by decide) (by decide)

/-- C3: the tree builder succeeds exactly when consuming the whole path
leaves the worklist with exactly one node, and success forces the path to
have exactly `n - 1` pairs for `n` operands (any shorter or longer path
aborts with `none`, the fatal assertion). -/
theorem C3_success_iff_single_node (ids : List (List Char))
    (path : List (Nat × Nat)) :
    ((∃ t, build_contraction_tree ids path = some t) ↔
      ∃ ns, path.foldlM contractStep (initialLeaves ids) = some ns ∧
        ns.length = 1) ∧
    ∀ t, build_contraction_tree ids path = some t →
      path.length + 1 = ids.length := by
  constructor
  · constructor
    · rintro ⟨t, ht⟩
      rw [build_eq_some] at ht
      exact ⟨[t], ht, rfl⟩
    · rintro ⟨ns, hns, hlen⟩
      cases ns with
      | nil => simp at hlen
      | cons x xs =>
        cases xs with
        | nil => exact ⟨x, build_eq_some.mpr hns⟩
        | cons y ys => simp at hlen
  · intro t ht
    rw [build_eq_some] at ht
    have h1 := foldl_contract_length path _ _ ht
    rw [length_initialLeaves] at h1
    simp only [List.length_cons, List.length_nil] at h1
    omega

theorem C3_success_iff_single_node_witness :
    ((∃ t, build_contraction_tree [['a'], ['b']] [(0, 1)] = some t) ↔
      ∃ ns, [(0, 1)].foldlM contractStep (initialLeaves [['a'], ['b']]) =
        some ns ∧ ns.length = 1) ∧
    ∀ t, build_contraction_tree [['a'], ['b']] [(0, 1)] = some t →
      ([((0 : Nat), (1 : Nat))] : List (Nat × Nat)).length + 1 =
        ([['a'], ['b']] : List (List Char)).length :=
  C3_success_iff_single_node [['a'], ['b']] [(0, 1)]

/-- C4: every successfully built tree over `n` operands has exactly `n`
leaves, exactly `n - 1` internal nodes, and its leaf `tensor_index`
values are a duplicate-free permutation of `0 .. n-1`. -/
theorem C4_tree_shape (ids : List (List Char)) (path : List (Nat × Nat))
    (t : EinsumNode) (h : build_contraction_tree ids path = some t) :
    leafCount t = ids.length ∧ internalCount t + 1 = ids.length ∧
    (leafIndices t).Perm (List.range ids.length) ∧
    (leafIndices t).Nodup := by
  rw [build_eq_some] at h
  have hperm := foldl_contract_leafIndices path _ _ h
  have hint := foldl_contract_internal path _ _ h
  have hlen := foldl_contract_length path _ _ h
  rw [leafIndicesList_initialLeaves] at hperm
  rw [internalCountList_initialLeaves] at hint
  rw [length_initialLeaves] at hlen
  have e1 : leafIndicesList [t] = leafIndices t := by
    simp [leafIndicesList]
  have e2 : internalCountList [t] = internalCount t := by
    simp [internalCountList]
  rw [e1] at hperm
  rw [e2] at hint
  simp only [List.length_cons, List.length_nil] at hlen
  refine ⟨?_, ?_, hperm, hperm.nodup_iff.mpr (List.nodup_range _)⟩
  · rw [leafCount_eq_length, hperm.length_eq, List.length_range]
  · omega

theorem C4_tree_shape_witness :
    leafCount (EinsumNode.Contract
      [EinsumNode.Leaf ['a'] 0, EinsumNode.Leaf ['b'] 1]) =
        ([['a'], ['b']] : List (List Char)).length ∧
    internalCount (EinsumNode.Contract
      [EinsumNode.Leaf ['a'] 0, EinsumNode.Leaf ['b'] 1]) + 1 =
        ([['a'], ['b']] : List (List Char)).length ∧
    (leafIndices (EinsumNode.Contract
      [EinsumNode.Leaf ['a'] 0, EinsumNode.Leaf ['b'] 1])).Perm
        (List.range ([['a'], ['b']] : List (List Char)).length) ∧
    (leafIndices (EinsumNode.Contract
      [EinsumNode.Leaf ['a'] 0, EinsumNode.Leaf ['b'] 1])).Nodup :=
  C4_tree_shape [['a'], ['b']] [(0, 1)]
    (EinsumNode.Contract [EinsumNode.Leaf ['a'] 0, EinsumNode.Leaf ['b'] 1])
    rfl

/-- C5: the concrete scenario `"ba,dca,feb->ki"` with path
`[[1,2],[0,1]]`: the parser yields the three operands and output `ki`;
the first merge combines `dca` and `feb` (removing positions 2 then 1) in
that child order; the final tree pairs leaf `ba` with that merged node,
with exactly 2 internal nodes. -/
theorem C5_concrete_scenario :
    parse_format_string
        ['b','a',',','d','c','a',',','f','e','b','-','>','k','i'] =
      some ([['b','a'], ['d','c','a'], ['f','e','b']], ['k','i']) ∧
    contractStep (initialLeaves [['b','a'], ['d','c','a'], ['f','e','b']])
        (1, 2) =
      some [EinsumNode.Leaf ['b','a'] 0,
        EinsumNode.Contract [EinsumNode.Leaf ['d','c','a'] 1,
          EinsumNode.Leaf ['f','e','b'] 2]] ∧
    build_contraction_tree [['b','a'], ['d','c','a'], ['f','e','b']]
        [(1, 2), (0, 1)] =
      some (EinsumNode.Contract [EinsumNode.Leaf ['b','a'] 0,
        EinsumNode.Contract [EinsumNode.Leaf ['d','c','a'] 1,
          EinsumNode.Leaf ['f','e','b'] 2]]) ∧
    internalCount (EinsumNode.Contract [EinsumNode.Leaf ['b','a'] 0,
      EinsumNode.Contract [EinsumNode.Leaf ['d','c','a'] 1,
        EinsumNode.Leaf ['f','e','b'] 2]]) = 2 :=
  ⟨rfl, rfl, rfl, rfl⟩

/-- C6: the format-string parser fails exactly when no `->` occurs in the
input; when `->` occurs, it splits at the first occurrence, returning the
left side split on `,` and the right side (even when empty) verbatim. -/
theorem C6_parse_contract (s : List Char) :
    (parse_format_string s = none ↔ ∀ i, ¬ arrowAt s i) ∧
    ∀ i, arrowAt s i → (∀ k, k < i → ¬ arrowAt s k) →
      parse_format_string s =
        some (splitComma (s.take i), s.drop (i + 2)) := by
  constructor
  · unfold parse_format_string
    cases hsp : splitOnceArrow s with
    | none =>
      simpa using (splitOnceArrow_eq_none_iff s).mp hsp
    | some pr =>
      simp only [reduceCtorEq, false_iff]
      intro hall
      rw [(splitOnceArrow_eq_none_iff s).mpr hall] at hsp
      exact absurd hsp (by simp)
  · intro i hi hmin
    unfold parse_format_string
    rw [splitOnceArrow_first s i hi hmin]

theorem C6_parse_contract_witness :
    parse_format_string ['a','-','>','b'] = some ([['a']], ['b']) :=
  (C6_parse_contract ['a','-','>','b']).2 1 (by decide) (by decide)

/-- C7: for at least 4 recorded samples, the harness statistics — median
`sorted[len/2]`, quartiles `sorted[len/4]` and `sorted[3*len/4]` by
floor-division rank on the sorted samples, returned as the median and the
interquartile range — always satisfy `Q1 ≤ median ≤ Q3`. -/
theorem C7_quartile_order (times : List ℚ) (h : 4 ≤ times.length) :
    ∃ q1 med q3,
      (times.mergeSort).get? (times.length / 4) = some q1 ∧
      (times.mergeSort).get? (times.length / 2) = some med ∧
      (times.mergeSort).get? (3 * times.length / 4) = some q3 ∧
      bench_stats times = some (med, q3 - q1) ∧ q1 ≤ med ∧ med ≤ q3 := by
  have hlen : (times.mergeSort).length = times.length :=
    List.length_mergeSort times
  have h1 : times.length / 4 < (times.mergeSort).length := by omega
  have h2 : times.length / 2 < (times.mergeSort).length := by omega
  have h3 : 3 * times.length / 4 < (times.mergeSort).length := by omega
  have hs : List.Sorted (· ≤ ·) (times.mergeSort) :=
    List.sorted_mergeSort' times
  refine ⟨(times.mergeSort).get ⟨_, h1⟩, (times.mergeSort).get ⟨_, h2⟩,
    (times.mergeSort).get ⟨_, h3⟩, List.get?_eq_get h1,
    List.get?_eq_get h2, List.get?_eq_get h3, ?_, ?_, ?_⟩
  · unfold bench_stats
    rw [List.get?_eq_get h1, List.get?_eq_get h2, List.get?_eq_get h3]
  · exact hs.rel_get_of_le (by simp [Fin.le_def]; omega)
  · exact hs.rel_get_of_le (by simp [Fin.le_def]; omega)

theorem C7_quartile_order_witness :
    ∃ q1 med q3,
      (([3, 1, 2, 4] : List ℚ).mergeSort).get? 1 = some q1 ∧
      (([3, 1, 2, 4] : List ℚ).mergeSort).get? 2 = some med ∧
      (([3, 1, 2, 4] : List ℚ).mergeSort).get? 3 = some q3 ∧
      bench_stats [3, 1, 2, 4] = some (med, q3 - q1) ∧
      q1 ≤ med ∧ med ≤ q3 :=
  C7_quartile_order [3, 1, 2, 4] (by decide)

/-- C8: the micro-benchmark's literal canonical permutations are
bijections — `left_perm` has 13 entries forming a permutation of
`0 .. 12`, and `right_perm` has 24 entries forming a permutation of
`0 .. 23`, each index occurring exactly once. -/
theorem C8_perm_bijection :
    left_perm.length = 13 ∧ right_perm.length = 24 ∧
    left_perm.Perm (List.range 13) ∧ right_perm.Perm (List.range 24) := by
  refine ⟨rfl, rfl, ?_, ?_⟩ <;> decide

/-- C9: replacing any path pair `(p, q)` by its swapped form `(q, p)`
yields an identical result from the tree builder — the builder is
symmetric in the order of the two indices within each pair. -/
theorem C9_pair_swap_invariant (ids : List (List Char))
    (pre post : List (Nat × Nat)) (p q : Nat) :
    build_contraction_tree ids (pre ++ (p, q) :: post) =
      build_contraction_tree ids (pre ++ (q, p) :: post) := by
  unfold build_contraction_tree
  rw [List.foldlM_append, List.foldlM_append]
  have hfun : ((p, q) :: post).foldlM contractStep =
      (((q, p) :: post).foldlM contractStep :
        List EinsumNode → Option (List EinsumNode)) := by
    funext s
    rw [List.foldlM_cons, List.foldlM_cons, contractStep_symm s p q]
  rw [hfun]

/-- C10: whenever the parser succeeds it returns at least one operand; an
empty left side yields exactly one operand with an empty label sequence,
and an empty segment between commas yields an empty label sequence for
that operand rather than being skipped. -/
theorem C10_operands_nonempty :
    (∀ s ops out, parse_format_string s = some (ops, out) →
      1 ≤ ops.length) ∧
    (∀ r, parse_format_string ('-' :: '>' :: r) = some ([[]], r)) ∧
    (∀ l₁ l₂, ',' ∉ l₁ →
      splitComma (l₁ ++ ',' :: ',' :: l₂) = l₁ :: [] :: splitComma l₂) := by
  refine ⟨?_, ?_, ?_⟩
  · intro s ops out h
    unfold parse_format_string at h
    cases hsp : splitOnceArrow s with
    | none => rw [hsp] at h; exact absurd h (by simp)
    | some pr =>
      rw [hsp] at h
      simp only [Option.some.injEq, Prod.mk.injEq] at h
      obtain ⟨rfl, rfl⟩ := h
      have := splitComma_ne_nil pr.1
      cases hc : splitComma pr.1 with
      | nil => exact absurd hc this
      | cons x xs => simp
  · intro r
    rfl
  · intro l₁ l₂ h
    have h2 : splitComma (',' :: l₂) = [] :: splitComma l₂ := by
      rw [splitComma, if_pos rfl]
    rw [splitComma_no_comma l₁ (',' :: l₂) h, h2]

theorem C10_operands_nonempty_witness :
    parse_format_string ['-', '>'] = some ([[]], []) :=
  C10_operands_nonempty.2.1 []

end StridedBench
